import Mathlib

set_option linter.unusedVariables false

/-!
Verification of gilzoide/flyweight.hpp (single-header C++ flyweight caches).

The development shallowly embeds the final iteration of the header
(`flyweight::flyweight` and `flyweight::flyweight_refcounted`, keyed by a
`Key` type, with pluggable creator/deleter callbacks) together with the
composite-key hashing utility (`detail::hash_combine` / `detail::tuple_hasher`)
of the tuple-keyed iteration.

The C++ `std::unordered_map<Key, T>` is modelled as an association list with
at most one binding per key (all operations act on the first matching
binding, which is the only one in every reachable state).  To reason about
C++ reference identity (`&map_entry == &earlier_reference`), the plain store
additionally carries an explicit address model: values live in a heap
indexed by `Nat` addresses and the map binds keys to addresses; `get`/`peek`
return addresses, mirroring `T&` / `T*` returns.  Creator and deleter
callbacks are passed as function arguments (the C++ stores them in
`std::function` fields); a deleter is modelled as a mutation `α → α` applied
to whatever object the C++ code hands it by reference.
-/

namespace FlyweightHpp

section AssocOps

variable {κ γ : Type} [DecidableEq κ]

/-- `map.find(k)`: first binding of `k`, if any. -/
def findA : List (κ × γ) → κ → Option γ
  | [], _ => none
  | (k', v) :: rest, k => if k' = k then some v else findA rest k

/-- `map.erase(it)` where `it` is the iterator `map.find(k)` returned:
removes the first binding of `k`. -/
def eraseA : List (κ × γ) → κ → List (κ × γ)
  | [], _ => []
  | (k', v) :: rest, k => if k' = k then rest else (k', v) :: eraseA rest k

/-- In-place mutation of the mapped value `it->second` of the first binding
of `k` (models writing through the iterator `map.find(k)`). -/
def updateA : List (κ × γ) → κ → (γ → γ) → List (κ × γ)
  | [], _, _ => []
  | (k', v) :: rest, k, f =>
      if k' = k then (k', f v) :: rest else (k', v) :: updateA rest k f

theorem findA_nil (k : κ) : findA ([] : List (κ × γ)) k = none := rfl

theorem findA_cons_self (k : κ) (v : γ) (l : List (κ × γ)) :
    findA ((k, v) :: l) k = some v := by
  simp [findA]

theorem findA_append_of_none {l : List (κ × γ)} {k : κ}
    (h : findA l k = none) (m : List (κ × γ)) :
    findA (l ++ m) k = findA m k := by
  induction l with
  | nil => rfl
  | cons e rest ih =>
      obtain ⟨k', v⟩ := e
      by_cases hk : k' = k
      · simp [findA, hk] at h
      · simp only [findA, hk, if_neg] at h ⊢
        exact ih h

theorem eraseA_append_of_none {l : List (κ × γ)} {k : κ}
    (h : findA l k = none) (m : List (κ × γ)) :
    eraseA (l ++ m) k = l ++ eraseA m k := by
  induction l with
  | nil => rfl
  | cons e rest ih =>
      obtain ⟨k', v⟩ := e
      by_cases hk : k' = k
      · simp [findA, hk] at h
      · simp only [findA, hk, if_neg] at h
        simp [eraseA, hk, ih h]

theorem updateA_append_of_none {l : List (κ × γ)} {k : κ}
    (h : findA l k = none) (m : List (κ × γ)) (f : γ → γ) :
    updateA (l ++ m) k f = l ++ updateA m k f := by
  induction l with
  | nil => rfl
  | cons e rest ih =>
      obtain ⟨k', v⟩ := e
      by_cases hk : k' = k
      · simp [findA, hk] at h
      · simp only [findA, hk, if_neg] at h
        simp [updateA, hk, ih h]

theorem findA_updateA_self (l : List (κ × γ)) (k : κ) (f : γ → γ) :
    findA (updateA l k f) k = (findA l k).map f := by
  induction l with
  | nil => rfl
  | cons e rest ih =>
      obtain ⟨k', v⟩ := e
      by_cases hk : k' = k
      · simp [findA, updateA, hk]
      · simp [findA, updateA, hk, ih]

theorem findA_updateA_ne (l : List (κ × γ)) {k k' : κ} (hk : k' ≠ k)
    (f : γ → γ) : findA (updateA l k f) k' = findA l k' := by
  induction l with
  | nil => rfl
  | cons e rest ih =>
      obtain ⟨k₁, v⟩ := e
      by_cases h1 : k₁ = k
      · subst h1
        simp [findA, updateA, Ne.symm hk]
      · by_cases h2 : k₁ = k'
        · simp [findA, updateA, h1, h2, hk]
        · simp [findA, updateA, h1, h2, ih]

theorem findA_eraseA_ne (l : List (κ × γ)) {k k' : κ} (hk : k' ≠ k) :
    findA (eraseA l k) k' = findA l k' := by
  induction l with
  | nil => rfl
  | cons e rest ih =>
      obtain ⟨k₁, v⟩ := e
      by_cases h1 : k₁ = k
      · subst h1
        simp [findA, eraseA, Ne.symm hk]
      · by_cases h2 : k₁ = k'
        · simp [findA, eraseA, h1, h2, hk]
        · simp [findA, eraseA, h1, h2, ih]

theorem updateA_updateA (l : List (κ × γ)) (k : κ) (f g : γ → γ) :
    updateA (updateA l k f) k g = updateA l k (fun v => g (f v)) := by
  induction l with
  | nil => rfl
  | cons e rest ih =>
      obtain ⟨k', v⟩ := e
      by_cases hk : k' = k
      · simp [updateA, hk]
      · simp [updateA, hk, ih]

theorem updateA_congr (l : List (κ × γ)) (k : κ) {f g : γ → γ}
    (h : ∀ v, f v = g v) : updateA l k f = updateA l k g := by
  induction l with
  | nil => rfl
  | cons e rest ih =>
      obtain ⟨k', v⟩ := e
      by_cases hk : k' = k
      · simp [updateA, hk, h]
      · simp [updateA, hk, ih]

theorem updateA_id (l : List (κ × γ)) (k : κ) :
    updateA l k (fun v => v) = l := by
  induction l with
  | nil => rfl
  | cons e rest ih =>
      obtain ⟨k', v⟩ := e
      by_cases hk : k' = k
      · simp [updateA, hk]
      · simp [updateA, hk, ih]

theorem eraseA_updateA (l : List (κ × γ)) (k : κ) (f : γ → γ) :
    eraseA (updateA l k f) k = eraseA l k := by
  induction l with
  | nil => rfl
  | cons e rest ih =>
      obtain ⟨k', v⟩ := e
      by_cases hk : k' = k
      · simp [updateA, eraseA, hk]
      · simp [updateA, eraseA, hk, ih]

theorem mem_of_findA_eq_some (l : List (κ × γ)) (k : κ) :
    ∀ v, findA l k = some v → (k, v) ∈ l := by
  induction l with
  | nil => intro v h; simp [findA] at h
  | cons e rest ih =>
      obtain ⟨k', w⟩ := e
      intro v h
      by_cases hk : k' = k
      · subst hk
        simp [findA] at h
        simp [h]
      · simp only [findA, hk, ite_false, if_neg (fun hc => hk hc)] at h
        exact List.mem_cons_of_mem _ (ih v h)

theorem mem_eraseA (l : List (κ × γ)) (k : κ) :
    ∀ e ∈ eraseA l k, e ∈ l := by
  induction l with
  | nil => intro e he; simp [eraseA] at he
  | cons e' rest ih =>
      obtain ⟨k', v⟩ := e'
      intro e he
      by_cases hk : k' = k
      · subst hk
        simp [eraseA] at he
        exact List.mem_cons_of_mem _ he
      · simp only [eraseA, hk, ite_false, List.mem_cons] at he
        rcases he with he | he
        · exact he ▸ List.mem_cons_self _ _
        · exact List.mem_cons_of_mem _ (ih e he)

theorem mem_updateA (l : List (κ × γ)) (k : κ) (f : γ → γ) :
    ∀ e ∈ updateA l k f,
      e ∈ l ∨ ∃ v, findA l k = some v ∧ e = (k, f v) := by
  induction l with
  | nil => intro e he; simp [updateA] at he
  | cons e' rest ih =>
      obtain ⟨k', v⟩ := e'
      intro e he
      by_cases hk : k' = k
      · subst hk
        simp only [updateA, ite_true, List.mem_cons] at he
        rcases he with he | he
        · exact Or.inr ⟨v, findA_cons_self .., he⟩
        · exact Or.inl (List.mem_cons_of_mem _ he)
      · simp only [updateA, hk, ite_false, List.mem_cons] at he
        rcases he with he | he
        · exact Or.inl (he ▸ List.mem_cons_self _ _)
        · rcases ih e he with h' | ⟨w, hw, hew⟩
          · exact Or.inl (List.mem_cons_of_mem _ h')
          · refine Or.inr ⟨w, ?_, hew⟩
            simpa [findA, hk] using hw

theorem findA_eq_none_of_forall_ne {l : List (κ × γ)} {k : κ}
    (h : ∀ e ∈ l, e.1 ≠ k) : findA l k = none := by
  induction l with
  | nil => rfl
  | cons e rest ih =>
      obtain ⟨k', v⟩ := e
      have hk : k' ≠ k := h (k', v) (List.mem_cons_self _ _)
      simp only [findA, hk, ite_false, if_neg hk]
      exact ih (fun e he => h e (List.mem_cons_of_mem _ he))

theorem findA_eraseA_of_nodup {l : List (κ × γ)} (k : κ)
    (h : (l.map Prod.fst).Nodup) : findA (eraseA l k) k = none := by
  induction l with
  | nil => rfl
  | cons e rest ih =>
      obtain ⟨k', v⟩ := e
      simp only [List.map_cons, List.nodup_cons] at h
      by_cases hk : k' = k
      · subst hk
        simp only [eraseA, ite_true, if_pos rfl]
        refine findA_eq_none_of_forall_ne (fun e he hek => ?_)
        exact h.1 (hek ▸ List.mem_map_of_mem Prod.fst he)
      · simp only [eraseA, hk, ite_false, if_neg hk, findA, hk]
        exact ih h.2

end AssocOps

section Hashing

/-!
`detail::hash_combine` and `detail::tuple_hasher::hash_tuple` from the
tuple-keyed iteration (src/flyweight.hpp lines 91-114).  `size_t` is modelled
as a natural number reduced modulo `2 ^ w` for a `w`-bit `size_t`; shifts are
the C++ `<<` / `>>` on `size_t` (left shift truncates to `w` bits).  In the
C++ expression `a ^ b + 0x9e3779b9 + (a << 6) + (a >> 2)`, `^` binds weaker
than `+`, so the whole sum is the second xor operand.
-/

/-- `detail::hash_combine(a, b)` for a `w`-bit `size_t`. -/
def hash_combine (w a b : Nat) : Nat :=
  Nat.xor a ((b + 0x9e3779b9 + (a <<< 6) % 2 ^ w + a >>> 2) % 2 ^ w)

/-- `detail::tuple_hasher::hash_tuple` applied to the list of component
hashes `std::hash<Ti>{}(get<i>(v))` in tuple order: a single component is
hashed plainly, two or more components combine the head hash with the hash
of the remaining components. -/
def hash_tuple (w : Nat) : List Nat → Nat
  | [] => 0
  | [h] => h
  | h :: h2 :: rest => hash_combine w h (hash_tuple w (h2 :: rest))

/-- Modelled from the spec: the canonical golden-ratio combiner
`a XOR (b + 0x9e3779b9 + (a << 6) + (a >> 2))` with all arithmetic modulo
`2 ^ w` (written with plain multiplication/division for the shifts). -/
def hash_combine_spec (w a b : Nat) : Nat :=
  Nat.xor a ((b + 0x9e3779b9 + a * 2 ^ 6 + a / 2 ^ 2) % 2 ^ w)

/-- Modelled from the spec: the right-nested combination
`combine(h1, combine(h2, ... combine(h_{N-1}, hN)))` for component hashes
`hs ++ [last]`. -/
def right_nested_combine (w : Nat) (hs : List Nat) (last : Nat) : Nat :=
  hs.foldr (hash_combine_spec w) last

theorem hash_combine_eq_spec (w a b : Nat) :
    hash_combine w a b = hash_combine_spec w a b := by
  unfold hash_combine hash_combine_spec
  have hmod :
      (b + 0x9e3779b9 + (a * 2 ^ 6) % 2 ^ w + a / 2 ^ 2) % 2 ^ w =
      (b + 0x9e3779b9 + a * 2 ^ 6 + a / 2 ^ 2) % 2 ^ w :=
    ((Nat.ModEq.refl (b + 0x9e3779b9)).add
      (Nat.mod_modEq (a * 2 ^ 6) (2 ^ w))).add (Nat.ModEq.refl (a / 2 ^ 2))
  rw [Nat.shiftLeft_eq, Nat.shiftRight_eq_div_pow, hmod]

theorem hash_tuple_cons (w h : Nat) (l : List Nat) (hl : l ≠ []) :
    hash_tuple w (h :: l) = hash_combine w h (hash_tuple w l) := by
  cases l with
  | nil => exact absurd rfl hl
  | cons a t => rfl

theorem hash_tuple_append (w : Nat) (hs : List Nat) (last : Nat) :
    hash_tuple w (hs ++ [last]) = right_nested_combine w hs last := by
  induction hs with
  | nil => rfl
  | cons h rest ih =>
      rw [List.cons_append, hash_tuple_cons w h _ (by simp), ih,
        hash_combine_eq_spec]
      rfl

end Hashing

namespace flyweight

/-!
Embedding of `flyweight::flyweight<Key, T>` (final iteration,
src/unnamed/part_002 lines 554-677).  `entries` is the `std::unordered_map`
binding each key to the address of its mapped value; `heap` gives the value
currently stored at each live address; `next` is the next fresh address.
Addresses model C++ object identity: `T& get(...)` returns the address of
the map entry's value, `T* peek(...)` returns it as a nullable pointer.
-/
structure Store (κ α : Type) where
  entries : List (κ × Nat)
  heap : List (Nat × α)
  next : Nat
  deriving DecidableEq, Repr

variable {κ α : Type} [DecidableEq κ]

/-- The default-constructed store: an empty map. -/
def Store.empty (κ α : Type) : Store κ α := ⟨[], [], 0⟩

/-- Address of the value mapped to `k`, if loaded. -/
def addrOf (s : Store κ α) (k : κ) : Option Nat := findA s.entries k

/-- Value currently stored at address `a`, if live. -/
def valueAt (s : Store κ α) (a : Nat) : Option α := findA s.heap a

/-- Result of `flyweight::get`: the address of the returned reference,
whether the creator functor was invoked, and the store afterwards. -/
structure GetResult (κ α : Type) where
  addr : Nat
  created : Bool
  store : Store κ α
  deriving DecidableEq, Repr

/-- `T& flyweight::get(const Key& key)`: return the existing mapped value if
`key` is found, otherwise `map.emplace(key, creator(key))` and return the
new mapped value. -/
def get (creator : κ → α) (s : Store κ α) (k : κ) : GetResult κ α :=
  match findA s.entries k with
  | some a => ⟨a, false, s⟩
  | none =>
      ⟨s.next, true,
        ⟨s.entries ++ [(k, s.next)], s.heap ++ [(s.next, creator k)],
          s.next + 1⟩⟩

/-- `flyweight::get` when the creator functor may throw: the exception
propagates out of `get` before `map.emplace` runs, leaving the map as it
was.  On success behaves as `get`. -/
def getE {ε : Type} (creator : κ → Except ε α) (s : Store κ α) (k : κ) :
    Except ε Nat × Store κ α :=
  match findA s.entries k with
  | some a => (.ok a, s)
  | none =>
      match creator k with
      | .error e => (.error e, s)
      | .ok v =>
          (.ok s.next,
            ⟨s.entries ++ [(k, s.next)], s.heap ++ [(s.next, v)],
              s.next + 1⟩)

/-- `T* flyweight::peek(const Key& key)`: address of the existing mapped
value, or `none` for `nullptr`. -/
def peek (s : Store κ α) (k : κ) : Option Nat :=
  match findA s.entries k with
  | none => none
  | some a => some a

/-- `bool flyweight::is_loaded(const Key& key)`. -/
def is_loaded (s : Store κ α) (k : κ) : Bool :=
  (findA s.entries k).isSome

/-- Result of `flyweight::release`: the returned bool, the address whose
value the deleter functor was invoked on (if any), and the store
afterwards. -/
structure ReleaseResult (κ α : Type) where
  released : Bool
  deleterAddr : Option Nat
  store : Store κ α
  deriving DecidableEq, Repr

/-- `bool flyweight::release(const Key& key)`: if `key` is found, call
`deleter(it->second)` on the stored value (in place, at its address), then
erase the entry (destroying the stored value); otherwise a no-op returning
`false`. -/
def release (deleter : α → α) (s : Store κ α) (k : κ) : ReleaseResult κ α :=
  match findA s.entries k with
  | some a =>
      ⟨true, some a,
        ⟨eraseA s.entries k, eraseA (updateA s.heap a deleter) a, s.next⟩⟩
  | none => ⟨false, none, s⟩

/-- The loop body of `flyweight::clear` and of `flyweight::~flyweight`:
`for (auto it : map) deleter(it.second);`.  Each iteration copies the pair
by value (`auto it`), so the deleter receives a reference to a fresh copy
of the stored value, at a fresh address; the copy is destroyed at the end
of the iteration.  Returns the `(address, value received)` of each deleter
invocation, in iteration order. -/
def clearCalls (heap : List (Nat × α)) : List (κ × Nat) → Nat →
    List (Nat × α)
  | [], _ => []
  | (_, a) :: rest, fresh =>
      match findA heap a with
      | some v => (fresh, v) :: clearCalls heap rest (fresh + 1)
      | none => clearCalls heap rest fresh

/-- Result of `flyweight::clear`: the deleter invocations made by the loop
and the store afterwards. -/
structure ClearResult (κ α : Type) where
  calls : List (Nat × α)
  store : Store κ α
  deriving DecidableEq, Repr

/-- `void flyweight::clear()`: run the by-value deleter loop, then
`map.clear()`. -/
def clear (s : Store κ α) : ClearResult κ α :=
  ⟨clearCalls s.heap s.entries s.next,
    ⟨[], [], s.next + s.entries.length⟩⟩

/-- The deleter invocations of `flyweight::~flyweight`, whose loop is
identical to the one in `clear`. -/
def dtorCalls (s : Store κ α) : List (Nat × α) :=
  clearCalls s.heap s.entries s.next

/-- `n` successive calls `get(k)`, collecting each returned address and
whether that call invoked the creator. -/
def getN (creator : κ → α) (s : Store κ α) (k : κ) :
    Nat → List (Nat × Bool) × Store κ α
  | 0 => ([], s)
  | n + 1 =>
      let r := get creator s k
      let p := getN creator r.store k n
      ((r.addr, r.created) :: p.1, p.2)

/-- Constructing an `autorelease_value` guard via `get_autorelease` and then
destroying it: the guard's constructor performs exactly one `get(key)` and
its destructor exactly one `release(key)` (src/unnamed/part_002 lines
484-531, 613-618). -/
def guardRoundTrip (creator : κ → α) (deleter : α → α) (s : Store κ α)
    (k : κ) : Store κ α :=
  (release deleter (get creator s k).store k).store

/-- Well-formedness of the address model: every map entry points at a live
heap address below `next`, every heap address is below `next`, and the map
binds each key at most once (as `std::unordered_map` does). -/
def WF (s : Store κ α) : Prop :=
  (∀ e ∈ s.entries, e.2 < s.next ∧ (findA s.heap e.2).isSome = true) ∧
  (∀ h ∈ s.heap, h.1 < s.next) ∧
  (s.entries.map Prod.fst).Nodup

instance (s : Store κ α) : Decidable (WF s) := by
  unfold WF; infer_instance

theorem get_loaded {s : Store κ α} {k : κ} {a : Nat} (c : κ → α)
    (h : findA s.entries k = some a) : get c s k = ⟨a, false, s⟩ := by
  simp [get, h]

theorem getN_loaded {s : Store κ α} {k : κ} {a : Nat} (c : κ → α)
    (h : findA s.entries k = some a) :
    ∀ n, getN c s k n = (List.replicate n (a, false), s) := by
  intro n
  induction n with
  | zero => rfl
  | succ n ih =>
      rw [getN, get_loaded c h]
      simp [ih, List.replicate_succ]

theorem clearCalls_map_snd (heap : List (Nat × α)) :
    ∀ (entries : List (κ × Nat)) (fresh : Nat),
      (clearCalls heap entries fresh).map Prod.snd =
        entries.filterMap (fun e => findA heap e.2) := by
  intro entries
  induction entries with
  | nil => intro fresh; rfl
  | cons e rest ih =>
      intro fresh
      obtain ⟨k, a⟩ := e
      cases hv : findA heap a with
      | none => simp [clearCalls, hv, List.filterMap_cons, ih]
      | some v => simp [clearCalls, hv, List.filterMap_cons, ih]

theorem clearCalls_addr_fresh (heap : List (Nat × α)) :
    ∀ (entries : List (κ × Nat)) (fresh : Nat),
      ∀ call ∈ clearCalls heap entries fresh, fresh ≤ call.1 := by
  intro entries
  induction entries with
  | nil => intro fresh call hc; simp [clearCalls] at hc
  | cons e rest ih =>
      intro fresh call hc
      obtain ⟨k, a⟩ := e
      cases hv : findA heap a with
      | none =>
          rw [clearCalls, hv] at hc
          exact ih fresh call hc
      | some v =>
          rw [clearCalls, hv] at hc
          rcases List.mem_cons.mp hc with hc | hc
          · subst hc; exact le_refl _
          · exact Nat.le_of_succ_le (ih (fresh + 1) call hc)

theorem clearCalls_length (heap : List (Nat × α)) :
    ∀ (entries : List (κ × Nat)),
      (∀ e ∈ entries, (findA heap e.2).isSome = true) →
      ∀ fresh, (clearCalls heap entries fresh).length = entries.length := by
  intro entries
  induction entries with
  | nil => intro _ fresh; rfl
  | cons e rest ih =>
      intro hlive fresh
      obtain ⟨k, a⟩ := e
      cases hv : findA heap a with
      | none =>
          have := hlive (k, a) (List.mem_cons_self _ _)
          rw [hv] at this
          simp at this
      | some v =>
          rw [clearCalls, hv]
          simp only [List.length_cons]
          rw [ih (fun e he => hlive e (List.mem_cons_of_mem _ he)) (fresh + 1)]

/-- C3: a `get` on a loaded key returns the existing stored value — the very
same object (same address), with the store unchanged and the creator not
invoked; and starting from a miss, a `get` followed by any number of
further `get`s invokes the creator exactly once (on the first call) and
every call returns the same address. -/
theorem C3_idempotent_create_once (c : κ → α) (s : Store κ α) (k : κ) :
    (∀ a, addrOf s k = some a → get c s k = ⟨a, false, s⟩) ∧
    (addrOf s k = none → ∀ n,
      (getN c s k (n + 1)).1 =
        (s.next, true) :: List.replicate n (s.next, false)) := by
  constructor
  · intro a ha
    exact get_loaded c ha
  · intro h n
    have hf : findA s.entries k = none := h
    have hget : get c s k =
        ⟨s.next, true,
          ⟨s.entries ++ [(k, s.next)], s.heap ++ [(s.next, c k)],
            s.next + 1⟩⟩ := by
      simp [get, hf]
    have hfind : findA (s.entries ++ [(k, s.next)]) k = some s.next := by
      rw [findA_append_of_none h]
      simp [findA]
    rw [getN, hget]
    rw [getN_loaded c hfind n]

theorem C3_idempotent_create_once_witness :
    get (fun _ => 99) (⟨[(0, 5)], [(5, 99)], 6⟩ : Store Nat Nat) 0 =
      ⟨5, false, ⟨[(0, 5)], [(5, 99)], 6⟩⟩ ∧
    (getN (fun _ => 99) (Store.empty Nat Nat) 0 2).1 =
      [(0, true), (0, false)] := by
  have h1 := C3_idempotent_create_once (fun _ => 99)
    (⟨[(0, 5)], [(5, 99)], 6⟩ : Store Nat Nat) 0
  have h2 := C3_idempotent_create_once (fun _ => 99)
    (Store.empty Nat Nat) 0
  refine ⟨h1.1 5 rfl, ?_⟩
  rw [h2.2 rfl 1]
  decide

/-- C4: releasing a loaded key invokes the deleter on the stored value (at
its stored address), removes the slot (leaving other keys untouched) and
returns `true`; `release`, `peek` and `is_loaded` on an unloaded key return
`false` / `nullptr` / `false`, leave the store unchanged and invoke no
callback. -/
theorem C4_release_and_miss (d : α → α) (s : Store κ α) (k : κ)
    (hwf : WF s) :
    (∀ a, addrOf s k = some a →
      (release d s k).released = true ∧
      (release d s k).deleterAddr = some a ∧
      is_loaded (release d s k).store k = false ∧
      (∀ k', k' ≠ k →
        addrOf (release d s k).store k' = addrOf s k')) ∧
    (addrOf s k = none →
      release d s k = ⟨false, none, s⟩ ∧ peek s k = none ∧
      is_loaded s k = false) := by
  constructor
  · intro a ha
    have hf : findA s.entries k = some a := ha
    have hrel : release d s k =
        ⟨true, some a,
          ⟨eraseA s.entries k, eraseA (updateA s.heap a d) a, s.next⟩⟩ := by
      simp [release, hf]
    refine ⟨by rw [hrel], by rw [hrel], ?_, ?_⟩
    · rw [hrel]
      simp only [is_loaded]
      rw [findA_eraseA_of_nodup k hwf.2.2]
      rfl
    · intro k' hk'
      rw [hrel]
      simp only [addrOf]
      exact findA_eraseA_ne s.entries hk'
  · intro h
    have hf : findA s.entries k = none := h
    refine ⟨?_, ?_, ?_⟩
    · simp [release, hf]
    · simp [peek, hf]
    · simp [is_loaded, hf]

theorem C4_release_and_miss_witness :
    (release (fun v => v) (⟨[(0, 5)], [(5, 99)], 6⟩ : Store Nat Nat)
      0).released = true ∧
    (release (fun v => v) (⟨[(0, 5)], [(5, 99)], 6⟩ : Store Nat Nat)
      0).deleterAddr = some 5 ∧
    is_loaded (release (fun v => v)
      (⟨[(0, 5)], [(5, 99)], 6⟩ : Store Nat Nat) 0).store 0 = false ∧
    peek (⟨[(0, 5)], [(5, 99)], 6⟩ : Store Nat Nat) 1 = none := by
  have h0 := C4_release_and_miss (fun v => v)
    (⟨[(0, 5)], [(5, 99)], 6⟩ : Store Nat Nat) 0 (by decide)
  have h1 := C4_release_and_miss (fun v => v)
    (⟨[(0, 5)], [(5, 99)], 6⟩ : Store Nat Nat) 1 (by decide)
  exact ⟨(h0.1 5 rfl).1, (h0.1 5 rfl).2.1, (h0.1 5 rfl).2.2.1,
    (h1.2 rfl).2.1⟩

/-- C5: if the creator fails during a `get` miss, the failure propagates to
the caller unchanged and the whole map — every key's slot — is exactly as
it was before the call; no slot is inserted. -/
theorem C5_creator_failure {ε : Type} (creator : κ → Except ε α)
    (s : Store κ α) (k : κ) (e : ε)
    (hmiss : addrOf s k = none) (herr : creator k = .error e) :
    getE creator s k = (.error e, s) ∧
    (∀ k', addrOf (getE creator s k).2 k' = addrOf s k') := by
  have hf : findA s.entries k = none := hmiss
  have h : getE creator s k = (.error e, s) := by
    simp [getE, hf, herr]
  exact ⟨h, fun k' => by rw [h]⟩

theorem C5_creator_failure_witness :
    getE (fun _ => (Except.error 7 : Except Nat Nat))
      (⟨[(1, 0)], [(0, 4)], 1⟩ : Store Nat Nat) 0 =
      (Except.error 7, ⟨[(1, 0)], [(0, 4)], 1⟩) := by
  have h := C5_creator_failure (fun _ => (Except.error 7 : Except Nat Nat))
    (⟨[(1, 0)], [(0, 4)], 1⟩ : Store Nat Nat) 0 7 rfl rfl
  exact h.1

/-- C9: the `clear` loop (shared verbatim by the destructor) iterates the
map by value: the deleter runs exactly once per remaining slot, but on a
fresh copy of each stored value — at an address different from every stored
address, hence not identity-equal to the reference earlier `get`s returned
— while `release` hands the deleter the stored value itself, at its stored
address. -/
theorem C9_clear_copies (d : α → α) (s : Store κ α) (hwf : WF s) :
    (clear s).calls.length = s.entries.length ∧
    (clear s).calls.map Prod.snd =
      s.entries.filterMap (fun e => findA s.heap e.2) ∧
    (∀ call ∈ (clear s).calls, ∀ e ∈ s.entries, call.1 ≠ e.2) ∧
    dtorCalls s = (clear s).calls ∧
    (∀ (k : κ) (a : Nat), addrOf s k = some a →
      (release d s k).deleterAddr = some a) := by
  refine ⟨?_, ?_, ?_, rfl, ?_⟩
  · exact clearCalls_length s.heap s.entries
      (fun e he => (hwf.1 e he).2) s.next
  · exact clearCalls_map_snd s.heap s.entries s.next
  · intro call hc e he
    have h1 : s.next ≤ call.1 :=
      clearCalls_addr_fresh s.heap s.entries s.next call hc
    have h2 : e.2 < s.next := (hwf.1 e he).1
    omega
  · intro k a ha
    have hf : findA s.entries k = some a := ha
    simp [release, hf]

theorem C9_clear_copies_witness :
    (clear (⟨[(0, 5)], [(5, 99)], 6⟩ : Store Nat Nat)).calls.length = 1 ∧
    (clear (⟨[(0, 5)], [(5, 99)], 6⟩ : Store Nat Nat)).calls.map
      Prod.snd = [99] := by
  have h := C9_clear_copies (fun v => v)
    (⟨[(0, 5)], [(5, 99)], 6⟩ : Store Nat Nat) (by decide)
  refine ⟨by rw [h.1]; rfl, ?_⟩
  rw [h.2.1]
  decide

end flyweight

namespace flyweight_refcounted

/-!
Embedding of `flyweight::flyweight_refcounted<Key, T>` (final iteration,
src/unnamed/part_002 lines 699-835).  The map binds each key to the
`detail::refcounted_value<T>` slot `{ value, refcount }`; `refcount` is a
C++ `long long`, modelled as `Int`.  Reference identity plays no role in
the claims about this store, so no address model is carried.
-/

variable {κ α : Type} [DecidableEq κ]

/-- The `std::unordered_map<Key, detail::refcounted_value<T>>` of a
`flyweight_refcounted`, as an association list. -/
abbrev RcStore (κ α : Type) : Type := List (κ × α × Int)

/-- `T& flyweight_refcounted::get(const Key& key)`: find or
`map.emplace(key, creator(key))` — `refcounted_value` is constructed with
`refcount = 0` — then call `it->second.reference()`, which increments the
count, and return the payload. -/
def get (creator : κ → α) (s : RcStore κ α) (k : κ) : α × RcStore κ α :=
  match findA s k with
  | some (v, _) => (v, updateA s k (fun p => (p.1, p.2 + 1)))
  | none =>
      let v := creator k
      (v, updateA (s ++ [(k, v, 0)]) k (fun p => (p.1, p.2 + 1)))

/-- `size_t flyweight_refcounted::reference_count(const Key& key)`: the
slot's `refcount` if loaded, else `0`.  (The C++ converts the `long long`
count to `size_t`; in every reachable state the count of a loaded slot is
positive, so the conversion preserves the value.) -/
def reference_count (s : RcStore κ α) (k : κ) : Int :=
  match findA s k with
  | some (_, n) => n
  | none => 0

/-- `bool flyweight_refcounted::is_loaded(const Key& key)`. -/
def is_loaded (s : RcStore κ α) (k : κ) : Bool :=
  (findA s k).isSome

/-- `T* flyweight_refcounted::peek(const Key& key)`: payload of the slot if
loaded, else `nullptr`. -/
def peek (s : RcStore κ α) (k : κ) : Option α :=
  match findA s k with
  | none => none
  | some (v, _) => some v

/-- Result of `flyweight_refcounted::release`: the returned bool, the store
afterwards, and whether the deleter functor was invoked. -/
structure RcReleaseResult (κ α : Type) where
  released : Bool
  store : RcStore κ α
  deleterInvoked : Bool

/-- `bool flyweight_refcounted::release(const Key& key)`: if `key` is found,
`it->second.dereference()` decrements the count; when the decremented count
is `≤ 0` the deleter is called on the slot and the entry erased (`true`),
otherwise only the decrement persists (`false`).  An unloaded key is a
no-op returning `false`. -/
def release (deleter : α → α) (s : RcStore κ α) (k : κ) :
    RcReleaseResult κ α :=
  match findA s k with
  | some (_, n) =>
      if n - 1 ≤ 0 then ⟨true, eraseA s k, true⟩
      else ⟨false, updateA s k (fun p => (p.1, p.2 - 1)), false⟩
  | none => ⟨false, s, false⟩

/-- `void flyweight_refcounted::clear()`: calls the deleter once per slot
(on a by-value copy, as in `flyweight::clear`) and empties the map.
Returns the new map and the number of deleter invocations. -/
def clear (s : RcStore κ α) : RcStore κ α × Nat :=
  (([] : RcStore κ α), List.length s)

/-- Constructing then destroying an `autorelease_value` guard: exactly one
`get(key)` followed by exactly one `release(key)` (src/unnamed/part_002
lines 484-531, 758-763). -/
def guardRoundTrip (creator : κ → α) (deleter : α → α) (s : RcStore κ α)
    (k : κ) : RcStore κ α :=
  (release deleter (get creator s k).2 k).store

/-- One public call in a client trace: `get(k)` or `release(k)`. -/
inductive RcOp (κ : Type) where
  | get (k : κ)
  | release (k : κ)
  deriving DecidableEq, Repr

/-- Run a trace of `get`/`release` calls, counting deleter invocations. -/
def run (creator : κ → α) (deleter : α → α) (s : RcStore κ α) :
    List (RcOp κ) → RcStore κ α × Nat
  | [] => (s, 0)
  | .get k :: rest =>
      run creator deleter (get creator s k).2 rest
  | .release k :: rest =>
      let r := release deleter s k
      let p := run creator deleter r.store rest
      (p.1, (if r.deleterInvoked then 1 else 0) + p.2)

/-- Number of `get(k)` calls in a trace. -/
def countGet (k : κ) (ops : List (RcOp κ)) : Nat :=
  ops.countP (fun op => op = RcOp.get k)

/-- Number of `release(k)` calls in a trace. -/
def countRel (k : κ) (ops : List (RcOp κ)) : Nat :=
  ops.countP (fun op => op = RcOp.release k)

/-- The slot state of key `k`, summarised as a natural number: `0` when not
loaded, the reference count when loaded.  This is the shape of every state
reachable by public operations. -/
def KeyState (s : RcStore κ α) (k : κ) (n : Nat) : Prop :=
  (n = 0 ∧ findA s k = none) ∨
  (1 ≤ n ∧ findA (eraseA s k) k = none ∧
    ∃ v, findA s k = some (v, (n : Int)))

/-- Invariant of the reference-counted store: every slot present in the map
has a reference count of at least 1. -/
def RcWF (s : RcStore κ α) : Prop :=
  ∀ e ∈ s, 1 ≤ e.2.2

instance (s : RcStore κ α) : Decidable (RcWF s) := by
  unfold RcWF; exact List.decidableBAll _ s

theorem get_of_none {s : RcStore κ α} {k : κ} (c : κ → α)
    (hk : findA s k = none) :
    (get c s k).2 = s ++ [(k, c k, 1)] := by
  simp only [get, hk]
  rw [updateA_append_of_none hk]
  simp [updateA]

theorem get_of_some {s : RcStore κ α} {k : κ} {v : α} {x : Int} (c : κ → α)
    (hk : findA s k = some (v, x)) :
    get c s k = (v, updateA s k (fun p => (p.1, p.2 + 1))) := by
  simp [get, hk]

theorem keyState_get {s : RcStore κ α} {k : κ} {n : Nat} (c : κ → α)
    (h : KeyState s k n) : KeyState (get c s k).2 k (n + 1) := by
  rcases h with ⟨hn, hfind⟩ | ⟨hn, huniq, v, hfind⟩
  · subst hn
    rw [get_of_none c hfind]
    refine Or.inr ⟨le_refl 1, ?_, c k, ?_⟩
    · rw [eraseA_append_of_none hfind]
      simpa [eraseA] using hfind
    · rw [findA_append_of_none hfind]
      simp [findA]
  · rw [(get_of_some c hfind : get c s k = _)]
    refine Or.inr ⟨by omega, ?_, v, ?_⟩
    · rw [eraseA_updateA]
      exact huniq
    · rw [findA_updateA_self, hfind]
      simp

theorem release_of_keyState_zero {s : RcStore κ α} {k : κ} (d : α → α)
    (h : KeyState s k 0) : release d s k = ⟨false, s, false⟩ := by
  rcases h with ⟨_, hfind⟩ | ⟨hn, _⟩
  · simp [release, hfind]
  · omega

theorem release_of_keyState_succ {s : RcStore κ α} {k : κ} {n : Nat}
    (d : α → α) (h : KeyState s k (n + 1)) :
    KeyState (release d s k).store k n ∧
      (release d s k).released = decide (n = 0) ∧
      (release d s k).deleterInvoked = decide (n = 0) := by
  rcases h with ⟨hn, _⟩ | ⟨_, huniq, v, hfind⟩
  · omega
  · by_cases hz : n = 0
    · subst hz
      have hcond : ((1 : Int)) - 1 ≤ 0 := by norm_num
      simp only [release, hfind]
      norm_num
      exact Or.inl ⟨rfl, huniq⟩
    · have hcond : ¬ (((n : Int) + 1) - 1 ≤ 0) := by
        intro hle
        omega
      simp only [release, hfind]
      push_cast
      rw [if_neg hcond]
      refine ⟨Or.inr ⟨by omega, ?_, v, ?_⟩, by simp [hz], by simp [hz]⟩
      · rw [eraseA_updateA]
        exact huniq
      · rw [findA_updateA_self, hfind]
        simp

theorem reference_count_of_keyState {s : RcStore κ α} {k : κ} {n : Nat}
    (h : KeyState s k n) : reference_count s k = (n : Int) := by
  rcases h with ⟨hn, hfind⟩ | ⟨_, _, v, hfind⟩
  · subst hn
    simp [reference_count, hfind]
  · simp [reference_count, hfind]

theorem is_loaded_of_keyState {s : RcStore κ α} {k : κ} {n : Nat}
    (h : KeyState s k n) : is_loaded s k = decide (1 ≤ n) := by
  rcases h with ⟨hn, hfind⟩ | ⟨hn, _, v, hfind⟩
  · subst hn
    simp [is_loaded, hfind]
  · simp [is_loaded, hfind]
    omega

theorem countGet_cons_get (k : κ) (ops : List (RcOp κ)) :
    countGet k (RcOp.get k :: ops) = countGet k ops + 1 := by
  simp [countGet, List.countP_cons]

theorem countGet_cons_rel (k : κ) (ops : List (RcOp κ)) :
    countGet k (RcOp.release k :: ops) = countGet k ops := by
  simp [countGet, List.countP_cons]

theorem countRel_cons_get (k : κ) (ops : List (RcOp κ)) :
    countRel k (RcOp.get k :: ops) = countRel k ops := by
  simp [countRel, List.countP_cons]

theorem countRel_cons_rel (k : κ) (ops : List (RcOp κ)) :
    countRel k (RcOp.release k :: ops) = countRel k ops + 1 := by
  simp [countRel, List.countP_cons]

theorem run_keyState (c : κ → α) (d : α → α) (k : κ) :
    ∀ (ops : List (RcOp κ)) (s : RcStore κ α) (n : Nat),
      (∀ op ∈ ops, op = RcOp.get k ∨ op = RcOp.release k) →
      KeyState s k n →
      (∀ i ≤ ops.length,
        countRel k (ops.take i) ≤ n + countGet k (ops.take i)) →
      KeyState (run c d s ops).1 k (n + countGet k ops - countRel k ops) := by
  intro ops
  induction ops with
  | nil =>
      intro s n _ hks _
      simpa [run, countGet, countRel] using hks
  | cons op rest ih =>
      intro s n hops hks hpre
      rcases hops op (List.mem_cons_self _ _) with hop | hop
      · subst hop
        have hks' : KeyState (get c s k).2 k (n + 1) := keyState_get c hks
        have hrest := ih (get c s k).2 (n + 1)
          (fun o ho => hops o (List.mem_cons_of_mem _ ho)) hks'
          (fun i hi => by
            have := hpre (i + 1) (by simpa using Nat.succ_le_succ hi)
            rw [List.take_succ_cons, countGet_cons_get,
              countRel_cons_get] at this
            omega)
        rw [run, countGet_cons_get, countRel_cons_get]
        have harith : n + 1 + countGet k rest - countRel k rest =
            n + (countGet k rest + 1) - countRel k rest := by omega
        rw [← harith]
        exact hrest
      · subst hop
        have hn : 1 ≤ n := by
          have := hpre 1 (by simp)
          simpa [List.take_succ_cons, countGet_cons_rel,
            countRel_cons_rel, countGet, countRel] using this
        obtain ⟨m, rfl⟩ : ∃ m, n = m + 1 := ⟨n - 1, by omega⟩
        have hstep := release_of_keyState_succ d hks
        have hrest := ih (release d s k).store m
          (fun o ho => hops o (List.mem_cons_of_mem _ ho)) hstep.1
          (fun i hi => by
            have := hpre (i + 1) (by simpa using Nat.succ_le_succ hi)
            rw [List.take_succ_cons, countGet_cons_rel,
              countRel_cons_rel] at this
            omega)
        rw [run, countGet_cons_rel, countRel_cons_rel]
        have harith : m + countGet k rest - countRel k rest =
            m + 1 + countGet k rest - (countRel k rest + 1) := by omega
        rw [← harith]
        exact hrest

theorem run_append (c : κ → α) (d : α → α) :
    ∀ (l1 l2 : List (RcOp κ)) (s : RcStore κ α),
      run c d s (l1 ++ l2) =
        ((run c d (run c d s l1).1 l2).1,
          (run c d s l1).2 + (run c d (run c d s l1).1 l2).2) := by
  intro l1
  induction l1 with
  | nil => intro l2 s; simp [run]
  | cons op rest ih =>
      intro l2 s
      cases op with
      | get k =>
          simp only [List.cons_append, run, List.append_eq]
          rw [ih]
      | release k =>
          simp only [List.cons_append, run, List.append_eq]
          rw [ih]
          refine Prod.ext rfl ?_
          simp
          omega

theorem run_replicate_get (c : κ → α) (d : α → α) (k : κ) :
    ∀ (j : Nat) (s : RcStore κ α) (n : Nat), KeyState s k n →
      KeyState (run c d s (List.replicate j (RcOp.get k))).1 k (n + j) ∧
        (run c d s (List.replicate j (RcOp.get k))).2 = 0 := by
  intro j
  induction j with
  | zero => intro s n h; simpa [run] using h
  | succ j ih =>
      intro s n h
      rw [List.replicate_succ, run]
      have := ih (get c s k).2 (n + 1) (keyState_get c h)
      refine ⟨?_, this.2⟩
      have harith : n + 1 + j = n + (j + 1) := by omega
      rw [← harith]
      exact this.1

theorem run_replicate_release (c : κ → α) (d : α → α) (k : κ) :
    ∀ (j : Nat) (s : RcStore κ α) (a : Nat), KeyState s k a → a ≤ j →
      KeyState (run c d s (List.replicate j (RcOp.release k))).1 k 0 ∧
        (run c d s (List.replicate j (RcOp.release k))).2 = min a 1 := by
  intro j
  induction j with
  | zero =>
      intro s a h ha
      have : a = 0 := by omega
      subst this
      simpa [run] using h
  | succ j ih =>
      intro s a h ha
      rw [List.replicate_succ, run]
      cases a with
      | zero =>
          rw [release_of_keyState_zero d h]
          have := ih s 0 h (by omega)
          simpa using this
      | succ b =>
          have hstep := release_of_keyState_succ d h
          have := ih (release d s k).store b hstep.1 (by omega)
          refine ⟨this.1, ?_⟩
          rw [hstep.2.2, this.2]
          cases b with
          | zero => simp
          | succ b2 => simp

theorem findA_of_keyState_zero {s : RcStore κ α} {k : κ}
    (h : KeyState s k 0) : findA s k = none := by
  rcases h with ⟨_, hfind⟩ | ⟨hn, _⟩
  · exact hfind
  · omega

theorem reference_count_get (c : κ → α) (s : RcStore κ α) (k : κ) :
    reference_count (get c s k).2 k = reference_count s k + 1 := by
  cases hf : findA s k with
  | none =>
      rw [get_of_none c hf]
      unfold reference_count
      rw [findA_append_of_none hf, hf]
      simp [findA]
  | some p =>
      obtain ⟨v, x⟩ := p
      have h2 : (get c s k).2 = updateA s k (fun p => (p.1, p.2 + 1)) := by
        rw [get_of_some c hf]
      rw [h2]
      unfold reference_count
      rw [findA_updateA_self, hf]
      simp

/-- C1: for the reference-counted store, starting from a state where `k` is
not loaded, after a trace of `get(k)`/`release(k)` calls in which no prefix
has more releases than gets, the reference count equals `gets − releases`
and `k` is loaded exactly while that difference is positive (so when the
counts are equal the slot is unloaded with count 0).  Moreover every `get`
increments the count by exactly 1 (a first `get` yields count 1) and every
`release` of a loaded slot decrements it by exactly 1. -/
theorem C1_refcount_balanced (c : κ → α) (d : α → α) (s : RcStore κ α)
    (k : κ) (ops : List (RcOp κ))
    (hops : ∀ op ∈ ops, op = RcOp.get k ∨ op = RcOp.release k)
    (hinit : findA s k = none)
    (hpre : ∀ i ≤ ops.length,
      countRel k (ops.take i) ≤ countGet k (ops.take i)) :
    reference_count (run c d s ops).1 k =
      ((countGet k ops - countRel k ops : Nat) : Int) ∧
    is_loaded (run c d s ops).1 k =
      decide (countRel k ops < countGet k ops) ∧
    (∀ s' : RcStore κ α,
      reference_count (get c s' k).2 k = reference_count s' k + 1) ∧
    (∀ (s' : RcStore κ α) (j : Nat), KeyState s' k (j + 1) →
      reference_count (release d s' k).store k = reference_count s' k - 1) := by
  have hks0 : KeyState s k 0 := Or.inl ⟨rfl, hinit⟩
  have hrun := run_keyState c d k ops s 0 hops hks0
    (fun i hi => by have := hpre i hi; omega)
  have heq : 0 + countGet k ops - countRel k ops =
      countGet k ops - countRel k ops := by omega
  rw [heq] at hrun
  refine ⟨reference_count_of_keyState hrun, ?_, ?_, ?_⟩
  · rw [is_loaded_of_keyState hrun]
    exact decide_eq_decide.mpr (by omega)
  · intro s'
    exact reference_count_get c s' k
  · intro s' j hks
    have hstep := release_of_keyState_succ d hks
    rw [reference_count_of_keyState hstep.1, reference_count_of_keyState hks]
    push_cast
    ring

theorem C1_refcount_balanced_witness :
    reference_count (run (fun _ => 0) (fun v => v) ([] : RcStore Nat Nat)
      [RcOp.get 0, RcOp.get 0, RcOp.release 0]).1 0 = 1 ∧
    is_loaded (run (fun _ => 0) (fun v => v) ([] : RcStore Nat Nat)
      [RcOp.get 0, RcOp.get 0, RcOp.release 0]).1 0 = true := by
  have h := C1_refcount_balanced (fun _ => 0) (fun v => v)
    ([] : RcStore Nat Nat) 0 [RcOp.get 0, RcOp.get 0, RcOp.release 0]
    (by decide) rfl (by decide)
  refine ⟨?_, ?_⟩
  · rw [h.1]
    decide
  · rw [h.2.1]
    decide

/-- C2: releasing `k` more times than it was got is clamped: after `n` gets
followed by `m ≥ n` releases the slot is unloaded with `reference_count 0`,
the deleter ran at most once (exactly once when `n ≥ 1`), and a release on
an unloaded key is a complete no-op returning `false`, creating no slot,
invoking no deleter, and observing count 0. -/
theorem C2_over_release_clamped (c : κ → α) (d : α → α) (s : RcStore κ α)
    (k : κ) (n m : Nat) (hnm : n ≤ m) (hinit : findA s k = none) :
    findA (run c d s (List.replicate n (RcOp.get k) ++
      List.replicate m (RcOp.release k))).1 k = none ∧
    reference_count (run c d s (List.replicate n (RcOp.get k) ++
      List.replicate m (RcOp.release k))).1 k = 0 ∧
    (run c d s (List.replicate n (RcOp.get k) ++
      List.replicate m (RcOp.release k))).2 = min n 1 ∧
    (∀ s₂ : RcStore κ α, findA s₂ k = none →
      release d s₂ k = ⟨false, s₂, false⟩ ∧ reference_count s₂ k = 0) := by
  have hks0 : KeyState s k 0 := Or.inl ⟨rfl, hinit⟩
  have hget := run_replicate_get c d k n s 0 hks0
  have hzn : 0 + n = n := by omega
  rw [hzn] at hget
  have hrel := run_replicate_release c d k m
    (run c d s (List.replicate n (RcOp.get k))).1 n hget.1 hnm
  have happ := run_append c d (List.replicate n (RcOp.get k))
    (List.replicate m (RcOp.release k)) s
  constructor
  · rw [happ]
    exact findA_of_keyState_zero hrel.1
  constructor
  · rw [happ]
    have := reference_count_of_keyState hrel.1
    simpa using this
  constructor
  · rw [happ]
    simp only [hget.2, hrel.2]
    omega
  · intro s₂ h₂
    constructor
    · simp [release, h₂]
    · simp [reference_count, h₂]

theorem C2_over_release_clamped_witness :
    findA (run (fun _ => 0) (fun v => v) ([] : RcStore Nat Nat)
      (List.replicate 1 (RcOp.get 0) ++
        List.replicate 2 (RcOp.release 0))).1 0 = none ∧
    (run (fun _ => 0) (fun v => v) ([] : RcStore Nat Nat)
      (List.replicate 1 (RcOp.get 0) ++
        List.replicate 2 (RcOp.release 0))).2 = 1 := by
  have h := C2_over_release_clamped (fun _ => 0) (fun v => v)
    ([] : RcStore Nat Nat) 0 1 2 (by omega) rfl
  refine ⟨h.1, ?_⟩
  rw [h.2.2.1]
  decide

/-- C7: implicit invariant of the reference-counted store: the property
"every slot in the map has reference count at least 1" is preserved by
`get`, `release` and `clear`; consequently a loaded key has
`reference_count ≥ 1` and a key with `reference_count = 0` is not
loaded. -/
theorem C7_loaded_implies_positive_count (c : κ → α) (d : α → α)
    (s : RcStore κ α) (k : κ) (hwf : RcWF s) :
    RcWF (get c s k).2 ∧ RcWF (release d s k).store ∧ RcWF (clear s).1 ∧
    (is_loaded s k = true → 1 ≤ reference_count s k) ∧
    (reference_count s k = 0 → is_loaded s k = false) := by
  refine ⟨?_, ?_, ?_, ?_, ?_⟩
  · cases hf : findA s k with
    | none =>
        rw [get_of_none c hf]
        intro e he
        rcases List.mem_append.mp he with he | he
        · exact hwf e he
        · simp only [List.mem_singleton] at he
          subst he
          norm_num
    | some p =>
        obtain ⟨v, x⟩ := p
        have h2 : (get c s k).2 = updateA s k (fun p => (p.1, p.2 + 1)) := by
          rw [get_of_some c hf]
        rw [h2]
        intro e he
        rcases mem_updateA s k _ e he with he' | ⟨w, hw, rfl⟩
        · exact hwf e he'
        · have h1 := hwf (k, w) (mem_of_findA_eq_some s k w hw)
          simp only at h1 ⊢
          omega
  · cases hf : findA s k with
    | none =>
        simp only [release, hf]
        exact hwf
    | some p =>
        obtain ⟨v, x⟩ := p
        by_cases hx : x - 1 ≤ 0
        · have h2 : (release d s k).store = eraseA s k := by
            simp [release, hf, hx]
          rw [h2]
          intro e he
          exact hwf e (mem_eraseA s k e he)
        · have h2 : (release d s k).store =
              updateA s k (fun p => (p.1, p.2 - 1)) := by
            simp [release, hf, hx]
          rw [h2]
          intro e he
          rcases mem_updateA s k _ e he with he' | ⟨w, hw, rfl⟩
          · exact hwf e he'
          · rw [hf] at hw
            injection hw with hw'
            subst hw'
            simp only
            omega
  · intro e he
    simp [clear] at he
  · intro hld
    cases hf : findA s k with
    | none => simp [is_loaded, hf] at hld
    | some p =>
        obtain ⟨v, x⟩ := p
        have := hwf (k, v, x) (mem_of_findA_eq_some s k (v, x) hf)
        simp only at this
        simp [reference_count, hf]
        exact this
  · intro hzero
    cases hf : findA s k with
    | none => simp [is_loaded, hf]
    | some p =>
        obtain ⟨v, x⟩ := p
        have h1 := hwf (k, v, x) (mem_of_findA_eq_some s k (v, x) hf)
        simp only at h1
        simp [reference_count, hf] at hzero
        omega

theorem C7_loaded_implies_positive_count_witness :
    RcWF (get (fun _ => 0) ([(0, 7, 2)] : RcStore Nat Nat) 0).2 ∧
    1 ≤ reference_count ([(0, 7, 2)] : RcStore Nat Nat) 0 := by
  have h := C7_loaded_implies_positive_count (fun _ => 0) (fun v => v)
    ([(0, 7, 2)] : RcStore Nat Nat) 0 (by decide)
  exact ⟨h.1, h.2.2.2.1 (by decide)⟩

end flyweight_refcounted

/-- C8: the composite-key hasher combines the component hashes `h1..hN` in
tuple order as the right-nested `hash_combine(h1, hash_combine(h2, ...))`
where `hash_combine(a, b) = a XOR (b + 0x9e3779b9 + (a << 6) + (a >> 2))`
with all arithmetic modulo `2 ^ w`; the combiner is order-sensitive
(non-commutative), and a single-component key hashes to the plain component
hash with no combination. -/
theorem C8_tuple_hash_combiner :
    (∀ w a b : Nat, hash_combine w a b = hash_combine_spec w a b) ∧
    (∀ w h : Nat, hash_tuple w [h] = h) ∧
    (∀ (w : Nat) (hs : List Nat) (last : Nat),
      hash_tuple w (hs ++ [last]) = right_nested_combine w hs last) ∧
    decide (hash_combine 64 0 1 = hash_combine 64 1 0) = false :=
  ⟨hash_combine_eq_spec, fun _ _ => rfl, hash_tuple_append, by decide⟩

/-- C6 counterexample: for the plain (non-refcounted) store with key `0`
already loaded, constructing and destroying an autorelease guard does not
leave the loaded state as it was: the guard's destructor releases the slot,
so the key ends up unloaded. -/
theorem C6_counterexample_plain_loaded :
    flyweight.is_loaded
      (⟨[(0, 0)], [(0, 42)], 1⟩ : flyweight.Store Nat Nat) 0 = true ∧
    flyweight.is_loaded
      (flyweight.guardRoundTrip (fun _ => 0) (fun v => v)
        (⟨[(0, 0)], [(0, 42)], 1⟩ : flyweight.Store Nat Nat) 0) 0 =
      false := by
  decide

/-- C6 amended: constructing then destroying an autorelease guard performs
exactly one `get` then one `release`; for the reference-counted store this
restores the store exactly (for every prior state satisfying the refcount
invariant), and for the plain store it restores the map exactly when the
key was not loaded before construction — when the key was already loaded,
destroying the guard releases the slot, leaving the key unloaded. -/
theorem C6_guard_pairing_amended {κ α : Type} [DecidableEq κ]
    (c : κ → α) (d : α → α) :
    (∀ (s : flyweight_refcounted.RcStore κ α) (k : κ),
      flyweight_refcounted.RcWF s →
      flyweight_refcounted.guardRoundTrip c d s k = s) ∧
    (∀ (s : flyweight.Store κ α) (k : κ), findA s.entries k = none →
      flyweight.WF s →
      (flyweight.guardRoundTrip c d s k).entries = s.entries ∧
      (flyweight.guardRoundTrip c d s k).heap = s.heap) ∧
    (∀ (s : flyweight.Store κ α) (k : κ), flyweight.WF s →
      flyweight.is_loaded s k = true →
      flyweight.is_loaded (flyweight.guardRoundTrip c d s k) k =
        false) := by
  refine ⟨?_, ?_, ?_⟩
  · intro s k hwf
    cases hf : findA s k with
    | none =>
        have hget := flyweight_refcounted.get_of_none c hf
        have hfind : findA (s ++ [(k, c k, 1)]) k = some (c k, 1) := by
          rw [findA_append_of_none hf]
          simp [findA]
        have hrel : flyweight_refcounted.release d (s ++ [(k, c k, 1)]) k =
            ⟨true, eraseA (s ++ [(k, c k, 1)]) k, true⟩ := by
          simp [flyweight_refcounted.release, hfind]
        unfold flyweight_refcounted.guardRoundTrip
        rw [hget, hrel]
        show eraseA (s ++ [(k, c k, 1)]) k = s
        rw [eraseA_append_of_none hf]
        simp [eraseA]
    | some p =>
        obtain ⟨v, x⟩ := p
        have hx : (1 : Int) ≤ x :=
          hwf (k, v, x) (mem_of_findA_eq_some s k (v, x) hf)
        have hget : (flyweight_refcounted.get c s k).2 =
            updateA s k (fun p => (p.1, p.2 + 1)) := by
          rw [flyweight_refcounted.get_of_some c hf]
        have hfind2 : findA (updateA s k (fun p => (p.1, p.2 + 1))) k =
            some (v, x + 1) := by
          rw [findA_updateA_self, hf]
          rfl
        have hcond : ¬ (x + 1 - 1 ≤ 0) := by omega
        have hrel : flyweight_refcounted.release d
            (updateA s k (fun p => (p.1, p.2 + 1))) k =
            ⟨false, updateA (updateA s k (fun p => (p.1, p.2 + 1))) k
              (fun p => (p.1, p.2 - 1)), false⟩ := by
          simp only [flyweight_refcounted.release, hfind2]
          rw [if_neg hcond]
        unfold flyweight_refcounted.guardRoundTrip
        rw [hget, hrel]
        show updateA (updateA s k (fun p => (p.1, p.2 + 1))) k
          (fun p => (p.1, p.2 - 1)) = s
        calc updateA (updateA s k (fun p => (p.1, p.2 + 1))) k
              (fun p => (p.1, p.2 - 1))
            = updateA s k (fun p =>
                ((fun p : α × Int => (p.1, p.2 - 1))
                  ((fun p : α × Int => (p.1, p.2 + 1)) p))) :=
              updateA_updateA s k _ _
          _ = updateA s k (fun p => p) :=
              updateA_congr s k (fun p => by simp)
          _ = s := updateA_id s k
  · intro s k hmiss hwf
    have hget : flyweight.get c s k =
        ⟨s.next, true,
          ⟨s.entries ++ [(k, s.next)], s.heap ++ [(s.next, c k)],
            s.next + 1⟩⟩ := by
      simp [flyweight.get, hmiss]
    have hfind : findA (s.entries ++ [(k, s.next)]) k = some s.next := by
      rw [findA_append_of_none hmiss]
      simp [findA]
    have hheapnone : findA s.heap s.next = none :=
      findA_eq_none_of_forall_ne (fun e he heq => by
        have h1 := hwf.2.1 e he
        omega)
    unfold flyweight.guardRoundTrip
    rw [hget]
    have hrel : flyweight.release d
        (⟨s.entries ++ [(k, s.next)], s.heap ++ [(s.next, c k)],
          s.next + 1⟩ : flyweight.Store κ α) k =
        ⟨true, some s.next,
          ⟨eraseA (s.entries ++ [(k, s.next)]) k,
            eraseA (updateA (s.heap ++ [(s.next, c k)]) s.next d) s.next,
            s.next + 1⟩⟩ := by
      simp [flyweight.release, hfind]
    rw [hrel]
    constructor
    · show eraseA (s.entries ++ [(k, s.next)]) k = s.entries
      rw [eraseA_append_of_none hmiss]
      simp [eraseA]
    · show eraseA (updateA (s.heap ++ [(s.next, c k)]) s.next d) s.next =
        s.heap
      rw [updateA_append_of_none hheapnone]
      rw [eraseA_append_of_none hheapnone]
      simp [updateA, eraseA]
  · intro s k hwf hld
    cases hfa : findA s.entries k with
    | none => simp [flyweight.is_loaded, hfa] at hld
    | some a =>
        have hget := flyweight.get_loaded c hfa
        unfold flyweight.guardRoundTrip
        rw [hget]
        have hrel : flyweight.release d s k =
            ⟨true, some a,
              ⟨eraseA s.entries k, eraseA (updateA s.heap a d) a,
                s.next⟩⟩ := by
          simp [flyweight.release, hfa]
        rw [hrel]
        show flyweight.is_loaded
          (⟨eraseA s.entries k, eraseA (updateA s.heap a d) a,
            s.next⟩ : flyweight.Store κ α) k = false
        simp only [flyweight.is_loaded]
        rw [findA_eraseA_of_nodup k hwf.2.2]
        rfl

theorem C6_guard_pairing_amended_witness :
    flyweight_refcounted.guardRoundTrip (fun _ => 7) (fun v => v)
      ([(0, 7, 2)] : flyweight_refcounted.RcStore Nat Nat) 0 =
      [(0, 7, 2)] ∧
    (flyweight.guardRoundTrip (fun _ => 7) (fun v => v)
      (flyweight.Store.empty Nat Nat) 0).entries = [] := by
  have h := C6_guard_pairing_amended (κ := Nat) (α := Nat)
    (fun _ => 7) (fun v => v)
  refine ⟨h.1 _ 0 (by decide), ?_⟩
  have h2 := (h.2.1 (flyweight.Store.empty Nat Nat) 0 rfl (by decide)).1
  rw [h2]
  rfl

end FlyweightHpp
